import Mathlib

/-!
# Shallow embedding of `compressed_anomaly_detection.py`

The source is a single Python class `MmvRecovery` (Monte-Carlo study of
sparse support recovery from compressed measurements).  Real scalars are
modelled by `ℚ`; numpy arrays by functions out of `ℕ` with explicit
dimension arguments.  The global numpy RNG is modelled by an explicit
stream `normal : ℕ → ℚ` of standard-normal draws together with a cursor
that each operation advances by the number of draws it consumes; a draw
of `np.random.normal(mu, s, _)` is `mu + s * normal i` at the next
cursor position `i`.  External library collaborators — `np.random.choice`,
`numpy.linalg.norm`, sklearn's `Lasso().fit`, and statsmodels'
`proportion_confint` — are modelled as oracle functions supplied in an
`Oracles` record (the spec lists them as external interfaces).

Caveat recorded once here: `ℚ` division by zero yields `0`, whereas the
source's float division by `0.0` yields `inf`/`NaN`; every theorem that
touches a zero denominator states this explicitly in its doc comment.
-/

/-- External collaborators of the source, as oracle functions.
`normal i` is the `i`-th standard-normal draw of the global numpy RNG
stream.  `choice N K c` models `np.random.choice(N, K, replace=False)`
issued at cursor `c` (modelled as consuming `K` draws).
`lassoFit rows n A y` models `Lasso().fit(A, y).coef_` for a `rows × n`
design matrix.  `confint s t` models
`proportion_confint(s, t, method='jeffreys')`.
`nrm v m` models `numpy.linalg.norm` of the length-`m` vector `v`. -/
structure Oracles where
  normal : ℕ → ℚ
  choice : ℕ → ℕ → ℕ → List ℕ
  lassoFit : ℕ → ℕ → (ℕ → ℕ → ℚ) → (ℕ → ℚ) → ℕ → ℚ
  confint : ℕ → ℕ → ℚ × ℚ
  nrm : (ℕ → ℚ) → ℕ → ℚ

/-- The configuration state stored by `MmvRecovery.__init__` (source
lines 22–51).  The constructor stores every argument unvalidated; the
two `TODO` comments in the source (lines 40–41) record the missing
threshold checks. -/
structure MmvRecovery where
  N : ℕ
  T : ℕ
  M : ℕ
  K : ℕ
  mu0 : ℚ
  mu1 : ℚ
  sigma0 : ℚ
  sigma1 : ℚ
  thresh : ℚ
  conf : Bool
  t_var : Bool
  alg : String

/-- Constructor `MmvRecovery.__init__`: stores the fields and performs no
validation whatsoever (the source body is pure attribute assignment). -/
def MmvRecovery.init (N T M K : ℕ) (mu0 mu1 sigma0 sigma1 thresh : ℚ)
    (conf t_var : Bool) (alg : String) : MmvRecovery :=
  ⟨N, T, M, K, mu0, mu1, sigma0, sigma1, thresh, conf, t_var, alg⟩

/-- Field `self.idxT = np.arange(1, self.T + 1, 1)`. -/
def MmvRecovery.idxT (cfg : MmvRecovery) : List ℕ :=
  (List.range cfg.T).map (· + 1)

/-- Field `self.idxM = np.arange(1, self.M + 1, 1)`. -/
def MmvRecovery.idxM (cfg : MmvRecovery) : List ℕ :=
  (List.range cfg.M).map (· + 1)

/-- Embeds `np.dot` of two length-`n` real vectors. -/
def dotQ (f g : ℕ → ℚ) (n : ℕ) : ℚ :=
  ∑ i ∈ Finset.range n, f i * g i

/-- Embeds `xi.argsort()`: the indices `0,…,N-1` sorted so that the key `f` is
ascending (ties resolved by the sort's own order; numpy documents tie
order as implementation-defined). -/
def argsort (f : ℕ → ℚ) (N : ℕ) : List ℕ :=
  List.insertionSort (fun i j => f i ≤ f j) (List.range N)

/-- Python's tail slice `l[-K:]`.  For `K = 0` the slice `l[-0:]` is
`l[0:]`, i.e. the whole list — the quirk the source inherits at
`argsort()[-K:]`. -/
def tailSlice (l : List ℕ) (K : ℕ) : List ℕ :=
  if K = 0 then l else l.drop (l.length - K)

/-- Embeds `set(xi.argsort()[-K:][::-1])`: the top-`K` selection shared by the
OSGA and Lasso recovery routines (source lines 93 and 106). -/
def topKFinset (f : ℕ → ℚ) (N K : ℕ) : Finset ℕ :=
  ((tailSlice (argsort f N) K).reverse).toFinset

/-- Embeds `np.argmax` over the scores `f 0, …, f (N-1)`: index of the first
occurrence of the maximum (replace the running best only on a strictly
larger score). -/
def argmaxIdx (f : ℕ → ℚ) (N : ℕ) : ℕ :=
  (List.range N).foldl (fun b n => if f b < f n then n else b) 0

/-- Method `keep_going(self, successes, trials)` (source lines 54–62):
in confidence mode, continue while the Jeffreys interval is wider than
`thresh`; otherwise continue while `trials < thresh`. -/
def keep_going (O : Oracles) (cfg : MmvRecovery) (successes trials : ℕ) : Bool :=
  if cfg.conf then
    let lh := O.confint successes trials
    decide (cfg.thresh < lh.2 - lh.1)
  else
    decide ((trials : ℚ) < cfg.thresh)

/-- Method `get_signal(self, N, T, K)` (source lines 65–70): choose the
support, fill an `N × T` array with null draws, then overwrite each
support row with anomalous draws.  Returns the signal, the support and
the advanced RNG cursor.  Draw bookkeeping: `choice` consumes `K`
positions, the null array `N*T`, the overwrite loop `K*T` (row at
position `p` of the support list consumes positions
`c+K+N*T+p*T … +T-1`). -/
def get_signal (O : Oracles) (cfg : MmvRecovery) (c N T K : ℕ) :
    (ℕ → ℕ → ℚ) × List ℕ × ℕ :=
  let support := O.choice N K c
  let c1 := c + K
  let X : ℕ → ℕ → ℚ := fun k t =>
    if k ∈ support then
      cfg.mu1 + cfg.sigma1 * O.normal (c1 + N * T + support.indexOf k * T + t)
    else
      cfg.mu0 + cfg.sigma0 * O.normal (c1 + k * T + t)
  (X, support, c1 + N * T + K * T)

/-- Method `get_measurement_matrix(self, N, T, M)` (source lines 73–82): in
time-varying mode a fresh `T × M × N` array of standard-normal draws;
otherwise one `M × N` matrix drawn once and replicated `T` times
(`np.array([m for t in range(T)])`).  Returns the `t`-indexed family of
matrices and the advanced RNG cursor. -/
def get_measurement_matrix (O : Oracles) (cfg : MmvRecovery) (c N T M : ℕ) :
    (ℕ → ℕ → ℕ → ℚ) × ℕ :=
  if cfg.t_var then
    (fun t i j => O.normal (c + t * (M * N) + i * N + j), c + T * (M * N))
  else
    let m : ℕ → ℕ → ℚ := fun i j => O.normal (c + i * N + j)
    (fun t i j => ((List.replicate T m).getD t (fun _ _ => 0)) i j, c + M * N)

/-- Method `recover_support_osga` (source lines 85–94): measurements
`y[t] = phi[t] · X[:,t]`, energy statistic
`xi[n] = 1/T * Σ_t (y[t]·phi[t,:,n])²`, prediction
`set(xi.argsort()[-K:][::-1])`.  Returns
(true support, predicted support, success indicator, RNG cursor). -/
def recover_support_osga (O : Oracles) (cfg : MmvRecovery) (N T M K c : ℕ) :
    Finset ℕ × Finset ℕ × ℕ × ℕ :=
  let s := get_signal O cfg c N T K
  let X := s.1
  let support := s.2.1
  let p := get_measurement_matrix O cfg s.2.2 N T M
  let phi := p.1
  let y : ℕ → ℕ → ℚ := fun t i => dotQ (phi t i) (fun j => X j t) N
  let xi : ℕ → ℚ := fun n =>
    1 / (T : ℚ) * ∑ t ∈ Finset.range T, dotQ (y t) (fun i => phi t i n) M ^ 2
  let support_predicted := topKFinset xi N K
  (support.toFinset, support_predicted,
    if support.toFinset = support_predicted then 1 else 0, p.2)

/-- Method `recover_support_lasso` (source lines 96–107): stack the `T`
systems into a `(T*M) × N` design (`phi.reshape(T*M, N)`, row `r`
being time step `r / M`, measurement row `r % M`), fit the external
Lasso solver, then apply the same raw-value top-`K` selection. -/
def recover_support_lasso (O : Oracles) (cfg : MmvRecovery) (N T M K c : ℕ) :
    Finset ℕ × Finset ℕ × ℕ × ℕ :=
  let s := get_signal O cfg c N T K
  let X := s.1
  let support := s.2.1
  let p := get_measurement_matrix O cfg s.2.2 N T M
  let phi := p.1
  let y : ℕ → ℕ → ℚ := fun t i => dotQ (phi t i) (fun j => X j t) N
  let phiStack : ℕ → ℕ → ℚ := fun r j => phi (r / M) (r % M) j
  let yStack : ℕ → ℚ := fun r => y (r / M) (r % M)
  let xi : ℕ → ℚ := O.lassoFit (T * M) N phiStack yStack
  let support_predicted := topKFinset xi N K
  (support.toFinset, support_predicted,
    if support.toFinset = support_predicted then 1 else 0, p.2)

/-- The SOMP loop state: per-time-step residuals, the list of
orthogonalized dictionary vectors built so far (`gamma[:, :, 0..l-1]`),
and the selected-index set. -/
structure SompState where
  residuals : ℕ → ℕ → ℚ
  gammas : List (ℕ → ℕ → ℚ)
  support_predicted : Finset ℕ

/-- The per-candidate SOMP score (source lines 126–128):
`Σ_t |residuals[t]·phi[t,:,n]| / ‖phi[t,:,n]‖`. -/
def sompScore (O : Oracles) (phi : ℕ → ℕ → ℕ → ℚ) (residuals : ℕ → ℕ → ℚ)
    (T M : ℕ) (n : ℕ) : ℚ :=
  ∑ t ∈ Finset.range T,
    |dotQ (residuals t) (fun i => phi t i n) M| / O.nrm (fun i => phi t i n) M

/-- One iteration of the SOMP loop body (source lines 125–145): select
the score-maximizing index, Gram-Schmidt the selected column against
the stored `gamma` vectors, and subtract the residual's projection onto
the new vector.  The iteration counter `l` of the source equals
`st.gammas.length`. -/
def sompStep (O : Oracles) (phi : ℕ → ℕ → ℕ → ℚ) (T M N : ℕ)
    (st : SompState) : SompState :=
  let nl := argmaxIdx (sompScore O phi st.residuals T M) N
  let l := st.gammas.length
  let gl : ℕ → ℕ → ℚ :=
    if l = 0 then fun t i => phi t i nl
    else fun t i =>
      phi t i nl - ∑ p ∈ Finset.range l,
        (dotQ (fun i2 => phi t i2 nl) ((st.gammas.getD p (fun _ _ => 0)) t) M /
          dotQ ((st.gammas.getD p (fun _ _ => 0)) t)
            ((st.gammas.getD p (fun _ _ => 0)) t) M) *
          (st.gammas.getD p (fun _ _ => 0)) t i
  let residuals' : ℕ → ℕ → ℚ := fun t i =>
    st.residuals t i - dotQ (st.residuals t) (gl t) M / dotQ (gl t) (gl t) M * gl t i
  ⟨residuals', st.gammas ++ [gl], insert nl st.support_predicted⟩

/-- Method `recover_support_somp` (source lines 110–148): initialize the
residuals to the measurements and run the loop body `K` times. -/
def recover_support_somp (O : Oracles) (cfg : MmvRecovery) (N T M K c : ℕ) :
    Finset ℕ × Finset ℕ × ℕ × ℕ :=
  let s := get_signal O cfg c N T K
  let X := s.1
  let support := s.2.1
  let p := get_measurement_matrix O cfg s.2.2 N T M
  let phi := p.1
  let y : ℕ → ℕ → ℚ := fun t i => dotQ (phi t i) (fun j => X j t) N
  let final := (List.range K).foldl (fun st _ => sompStep O phi T M N st) ⟨y, [], ∅⟩
  (support.toFinset, final.support_predicted,
    if support.toFinset = final.support_predicted then 1 else 0, p.2)

/-- The inner `while keep_going` loop of `run_experiment` (source lines
188–196): run a trial (the source hard-codes `recover_support_somp`
here regardless of `self.alg`), bump the counters, consult the
stopping rule.  `fuel` bounds the iteration count (the source loop has
no a-priori bound in confidence mode); on exhaustion the result is
`none`.  Returns (successes, trials, RNG cursor). -/
def runTrials (O : Oracles) (cfg : MmvRecovery) (t m : ℕ) :
    ℕ → ℕ → ℕ → ℕ → Option (ℕ × ℕ × ℕ)
  | 0, _, _, _ => none
  | fuel + 1, c, success_count, trial_count =>
    let r := recover_support_somp O cfg cfg.N t m cfg.K c
    let trial_count' := trial_count + 1
    let success_count' := success_count + r.2.2.1
    if keep_going O cfg success_count' trial_count' then
      runTrials O cfg t m fuel r.2.2.2 success_count' trial_count'
    else
      some (success_count', trial_count', r.2.2.2)

/-- Result of one `m`-row of the sweep: the per-cell elapsed times,
success rates and trial counts (in the order the source appends them),
plus the advanced RNG cursor and wall-clock read counter. -/
structure RowResult where
  t_times : List ℚ
  t_scores : List ℚ
  t_runs : List ℕ
  cursor : ℕ
  clockPos : ℕ

/-- The `for t in self.idxT` loop of `run_experiment` (source lines
186–200).  `clock p` is the value returned by the `p`-th call of
`time.time()`; each cell reads the clock twice (`time_t0`, `time_t1`). -/
def rowRun (O : Oracles) (cfg : MmvRecovery) (clock : ℕ → ℚ) (m fuel : ℕ) :
    List ℕ → ℕ → ℕ → Option RowResult
  | [], c, cp => some ⟨[], [], [], c, cp⟩
  | t :: ts, c, cp =>
    match runTrials O cfg t m fuel c 0 0 with
    | none => none
    | some r =>
      match rowRun O cfg clock m fuel ts r.2.2 (cp + 2) with
      | none => none
      | some rest =>
        some ⟨(clock (cp + 1) - clock cp) :: rest.t_times,
          ((r.1 : ℚ) / (r.2.1 : ℚ)) :: rest.t_scores,
          r.2.1 :: rest.t_runs, rest.cursor, rest.clockPos⟩

/-- The three result matrices of `run_experiment` (times, scores, runs)
plus the final RNG cursor and wall-clock read counter. -/
structure ExpResult where
  m_times : List (List ℚ)
  m_scores : List (List ℚ)
  m_runs : List (List ℕ)
  cursor : ℕ
  clockPos : ℕ

/-- The `for m in self.idxM` loop of `run_experiment` (source lines
181–205): one clock read before each row (`time_m0`) and one after
(`time_m1`, used only by the `print`). -/
def expRows (O : Oracles) (cfg : MmvRecovery) (clock : ℕ → ℚ) (fuel : ℕ) :
    List ℕ → ℕ → ℕ → Option ExpResult
  | [], c, cp => some ⟨[], [], [], c, cp⟩
  | m :: ms, c, cp =>
    match rowRun O cfg clock m fuel cfg.idxT c (cp + 1) with
    | none => none
    | some row =>
      match expRows O cfg clock fuel ms row.cursor (row.clockPos + 1) with
      | none => none
      | some rest =>
        some ⟨row.t_times :: rest.m_times, row.t_scores :: rest.m_scores,
          row.t_runs :: rest.m_runs, rest.cursor, rest.clockPos⟩

/-- Method `run_experiment(self)` (source lines 177–206), up to the external
`record_experiment` sink. -/
def run_experiment (O : Oracles) (cfg : MmvRecovery) (clock : ℕ → ℚ)
    (fuel c : ℕ) : Option ExpResult :=
  expRows O cfg clock fuel cfg.idxM c 0

/-- The per-candidate energy statistic exactly as §4.3 of the spec
words it: "the average over time steps of the squared inner product
between the measurement vector and the n-th column of that time step's
operator", with `y_t = operator_t · signal[:,t]`.  Stated over the
signal and operator produced for cursor `c`, for comparison with the
`xi` computed inside `recover_support_osga`. -/
def specEnergyStat (O : Oracles) (cfg : MmvRecovery) (N T M c : ℕ) (K : ℕ) :
    ℕ → ℚ :=
  fun n =>
    let s := get_signal O cfg c N T K
    let phi := (get_measurement_matrix O cfg s.2.2 N T M).1
    let y : ℕ → ℕ → ℚ := fun t i => ∑ j ∈ Finset.range N, phi t i j * s.1 j t
    1 / (T : ℚ) *
      ∑ t ∈ Finset.range T, (∑ i ∈ Finset.range M, y t i * phi t i n) ^ 2

/-! ## Basic facts about the top-K selection machinery -/

theorem argsort_perm (f : ℕ → ℚ) (N : ℕ) : (argsort f N).Perm (List.range N) :=
  List.perm_insertionSort _ _

theorem argsort_length (f : ℕ → ℚ) (N : ℕ) : (argsort f N).length = N :=
  (argsort_perm f N).length_eq.trans (List.length_range N)

theorem argsort_nodup (f : ℕ → ℚ) (N : ℕ) : (argsort f N).Nodup :=
  (argsort_perm f N).symm.nodup (List.nodup_range N)

theorem argsort_mem {f : ℕ → ℚ} {N i : ℕ} :
    i ∈ argsort f N ↔ i < N := by
  rw [(argsort_perm f N).mem_iff, List.mem_range]

theorem tailSlice_sublist (l : List ℕ) (K : ℕ) : (tailSlice l K).Sublist l := by
  unfold tailSlice
  split
  · exact List.Sublist.refl l
  · exact List.drop_sublist _ l

theorem topKFinset_subset_range (f : ℕ → ℚ) (N K : ℕ) :
    topKFinset f N K ⊆ Finset.range N := by
  intro i hi
  rw [topKFinset, List.mem_toFinset, List.mem_reverse] at hi
  rw [Finset.mem_range, ← argsort_mem (f := f)]
  exact (tailSlice_sublist _ _).mem hi

theorem topKFinset_card {f : ℕ → ℚ} {N K : ℕ} (hK : 1 ≤ K) (hKN : K ≤ N) :
    (topKFinset f N K).card = K := by
  have hne : K ≠ 0 := Nat.one_le_iff_ne_zero.mp hK
  have hnd : (tailSlice (argsort f N) K).Nodup :=
    (tailSlice_sublist _ _).nodup (argsort_nodup f N)
  rw [topKFinset, List.toFinset_card_of_nodup (List.nodup_reverse.mpr hnd),
    List.length_reverse]
  unfold tailSlice
  rw [if_neg hne, List.length_drop, argsort_length]
  omega

theorem topKFinset_zero (f : ℕ → ℚ) (N : ℕ) :
    topKFinset f N 0 = Finset.range N := by
  rw [topKFinset, tailSlice, if_pos rfl, List.toFinset_reverse]
  ext a
  simp [List.mem_toFinset, argsort_mem]

/-- Every selected index beats every unselected index: the `K`-element
tail of an ascending sort dominates the rest (ties resolved by the
sort's order). -/
theorem topKFinset_dominates {f : ℕ → ℚ} {N K : ℕ} (hK : 1 ≤ K)
    {i j : ℕ} (hi : i ∈ topKFinset f N K) (hj : j < N)
    (hj2 : j ∉ topKFinset f N K) : f j ≤ f i := by
  have hne : K ≠ 0 := Nat.one_le_iff_ne_zero.mp hK
  haveI : IsTotal ℕ fun a b => f a ≤ f b := ⟨fun a b => le_total (f a) (f b)⟩
  haveI : IsTrans ℕ fun a b => f a ≤ f b :=
    ⟨fun _ _ _ hab hbc => le_trans hab hbc⟩
  have hs : List.Sorted (fun a b => f a ≤ f b) (argsort f N) :=
    List.sorted_insertionSort _ _
  have hiD : i ∈ (argsort f N).drop ((argsort f N).length - K) := by
    rw [topKFinset, List.mem_toFinset, List.mem_reverse, tailSlice,
      if_neg hne] at hi
    exact hi
  have hjT : j ∈ (argsort f N).take ((argsort f N).length - K) := by
    have hjm : j ∈ argsort f N := argsort_mem.mpr hj
    have := (List.take_append_drop ((argsort f N).length - K) (argsort f N)).symm
    rw [this, List.mem_append] at hjm
    rcases hjm with h | h
    · exact h
    · exfalso
      apply hj2
      rw [topKFinset, List.mem_toFinset, List.mem_reverse, tailSlice, if_neg hne]
      exact h
  exact hs.rel_of_mem_take_of_mem_drop hjT hiD

theorem toFinset_list_range (N : ℕ) : (List.range N).toFinset = Finset.range N := by
  ext a
  simp

/-! ## Facts about `argmaxIdx` and the SOMP selection loop -/

theorem argmaxIdx_lt {f : ℕ → ℚ} {N : ℕ} (hN : 0 < N) : argmaxIdx f N < N := by
  have key : ∀ (l : List ℕ) (b : ℕ), b < N → (∀ n ∈ l, n < N) →
      l.foldl (fun b n => if f b < f n then n else b) b < N := by
    intro l
    induction l with
    | nil => intro b hb _; exact hb
    | cons x xs ih =>
      intro b hb hl
      simp only [List.foldl_cons]
      apply ih
      · split
        · exact hl x (List.mem_cons_self x xs)
        · exact hb
      · intro n hn; exact hl n (List.mem_cons_of_mem x hn)
  exact key (List.range N) 0 hN fun n hn => List.mem_range.mp hn

theorem sompFold_card_le (O : Oracles) (phi : ℕ → ℕ → ℕ → ℚ) (T M N : ℕ) :
    ∀ (l : List ℕ) (st : SompState),
      ((l.foldl (fun st _ => sompStep O phi T M N st) st).support_predicted).card ≤
        st.support_predicted.card + l.length := by
  intro l
  induction l with
  | nil => intro st; simp
  | cons x xs ih =>
    intro st
    simp only [List.foldl_cons, List.length_cons]
    calc ((xs.foldl (fun st _ => sompStep O phi T M N st)
            (sompStep O phi T M N st)).support_predicted).card ≤
          (sompStep O phi T M N st).support_predicted.card + xs.length := ih _
      _ ≤ st.support_predicted.card + 1 + xs.length := by
          have : (sompStep O phi T M N st).support_predicted =
              insert (argmaxIdx (sompScore O phi st.residuals T M) N)
                st.support_predicted := rfl
          rw [this]
          exact Nat.add_le_add_right (Finset.card_insert_le _ _) _
      _ = st.support_predicted.card + (xs.length + 1) := by omega

theorem sompFold_subset_range (O : Oracles) (phi : ℕ → ℕ → ℕ → ℚ)
    (T M N : ℕ) (hN : 0 < N) :
    ∀ (l : List ℕ) (st : SompState),
      st.support_predicted ⊆ Finset.range N →
      (l.foldl (fun st _ => sompStep O phi T M N st) st).support_predicted ⊆
        Finset.range N := by
  intro l
  induction l with
  | nil => intro st h; exact h
  | cons x xs ih =>
    intro st h
    simp only [List.foldl_cons]
    apply ih
    intro a ha
    have : (sompStep O phi T M N st).support_predicted =
        insert (argmaxIdx (sompScore O phi st.residuals T M) N)
          st.support_predicted := rfl
    rw [this, Finset.mem_insert] at ha
    rcases ha with h1 | h1
    · rw [h1, Finset.mem_range]; exact argmaxIdx_lt hN
    · exact h h1

/-! ## Facts about the trial loop and the sweep -/

/-- The success indicator of a SOMP trial is the 0/1 value of the
set-equality test. -/
theorem somp_success_le_one (O : Oracles) (cfg : MmvRecovery) (N T M K c : ℕ) :
    (recover_support_somp O cfg N T M K c).2.2.1 ≤ 1 := by
  unfold recover_support_somp
  dsimp only
  split <;> omega

/-- Counter invariant of the inner `while keep_going` loop: the trial
counter strictly grows and successes never outgrow trials. -/
theorem runTrials_bounds (O : Oracles) (cfg : MmvRecovery) (t m : ℕ) :
    ∀ (fuel c sc0 tc0 sc tc c2 : ℕ),
      runTrials O cfg t m fuel c sc0 tc0 = some (sc, tc, c2) →
      tc0 < tc ∧ sc0 ≤ sc ∧ sc + tc0 ≤ sc0 + tc := by
  intro fuel
  induction fuel with
  | zero => intro c sc0 tc0 sc tc c2 h; simp [runTrials] at h
  | succ fuel ih =>
    intro c sc0 tc0 sc tc c2 h
    rw [runTrials] at h
    set r := recover_support_somp O cfg cfg.N t m cfg.K c with hr
    have hsucc : r.2.2.1 ≤ 1 := somp_success_le_one O cfg cfg.N t m cfg.K c
    by_cases hk : keep_going O cfg (sc0 + r.2.2.1) (tc0 + 1) = true
    · rw [if_pos hk] at h
      have := ih r.2.2.2 (sc0 + r.2.2.1) (tc0 + 1) sc tc c2 h
      omega
    · rw [if_neg hk] at h
      have h1 : sc0 + r.2.2.1 = sc := congrArg (·.1) (Option.some.inj h)
      have h2 : tc0 + 1 = tc := congrArg (·.2.1) (Option.some.inj h)
      omega

/-- The statistics of one sweep row that the claimographically relevant
matrices receive: success rates, trial counts and the RNG cursor
(everything except the wall-clock column). -/
def rowStats (r : RowResult) : List ℚ × List ℕ × ℕ :=
  (r.t_scores, r.t_runs, r.cursor)

/-- The sweep results minus the elapsed-time matrix. -/
def expStats (r : ExpResult) : List (List ℚ) × List (List ℕ) × ℕ :=
  (r.m_scores, r.m_runs, r.cursor)

theorem rowRun_clock_irrel (O : Oracles) (cfg : MmvRecovery) (k1 k2 : ℕ → ℚ)
    (m fuel : ℕ) :
    ∀ (ts : List ℕ) (c cp1 cp2 : ℕ),
      (rowRun O cfg k1 m fuel ts c cp1).map rowStats =
        (rowRun O cfg k2 m fuel ts c cp2).map rowStats := by
  intro ts
  induction ts with
  | nil => intro c cp1 cp2; rfl
  | cons t ts ih =>
    intro c cp1 cp2
    simp only [rowRun]
    cases h : runTrials O cfg t m fuel c 0 0 with
    | none => rfl
    | some r =>
      dsimp only
      have hih := ih r.2.2 (cp1 + 2) (cp2 + 2)
      cases h1 : rowRun O cfg k1 m fuel ts r.2.2 (cp1 + 2) with
      | none =>
        rw [h1] at hih
        cases h2 : rowRun O cfg k2 m fuel ts r.2.2 (cp2 + 2) with
        | none => rfl
        | some rest2 => rw [h2] at hih; simp at hih
      | some rest1 =>
        rw [h1] at hih
        cases h2 : rowRun O cfg k2 m fuel ts r.2.2 (cp2 + 2) with
        | none => rw [h2] at hih; simp at hih
        | some rest2 =>
          rw [h2] at hih
          have es : rest1.t_scores = rest2.t_scores ∧ rest1.t_runs = rest2.t_runs ∧
              rest1.cursor = rest2.cursor := by
            simpa [rowStats, Prod.ext_iff] using hih
          simp [rowStats, es.1, es.2.1, es.2.2]

theorem expRows_clock_irrel (O : Oracles) (cfg : MmvRecovery) (k1 k2 : ℕ → ℚ)
    (fuel : ℕ) :
    ∀ (ms : List ℕ) (c cp1 cp2 : ℕ),
      (expRows O cfg k1 fuel ms c cp1).map expStats =
        (expRows O cfg k2 fuel ms c cp2).map expStats := by
  intro ms
  induction ms with
  | nil => intro c cp1 cp2; rfl
  | cons m ms ih =>
    intro c cp1 cp2
    simp only [expRows]
    have hrow := rowRun_clock_irrel O cfg k1 k2 m fuel cfg.idxT c (cp1 + 1) (cp2 + 1)
    cases h1 : rowRun O cfg k1 m fuel cfg.idxT c (cp1 + 1) with
    | none =>
      rw [h1] at hrow
      cases h2 : rowRun O cfg k2 m fuel cfg.idxT c (cp2 + 1) with
      | none => rfl
      | some row2 => rw [h2] at hrow; simp at hrow
    | some row1 =>
      rw [h1] at hrow
      cases h2 : rowRun O cfg k2 m fuel cfg.idxT c (cp2 + 1) with
      | none => rw [h2] at hrow; simp at hrow
      | some row2 =>
        rw [h2] at hrow
        have es : row1.t_scores = row2.t_scores ∧ row1.t_runs = row2.t_runs ∧
            row1.cursor = row2.cursor := by
          simpa [rowStats, Prod.ext_iff] using hrow
        dsimp only
        rw [← es.2.2]
        have hih := ih row1.cursor (row1.clockPos + 1) (row2.clockPos + 1)
        cases g1 : expRows O cfg k1 fuel ms row1.cursor (row1.clockPos + 1) with
        | none =>
          rw [g1] at hih
          cases g2 : expRows O cfg k2 fuel ms row1.cursor (row2.clockPos + 1) with
          | none => rfl
          | some rest2 => rw [g2] at hih; simp at hih
        | some rest1 =>
          rw [g1] at hih
          cases g2 : expRows O cfg k2 fuel ms row1.cursor (row2.clockPos + 1) with
          | none => rw [g2] at hih; simp at hih
          | some rest2 =>
            rw [g2] at hih
            have fs : rest1.m_scores = rest2.m_scores ∧ rest1.m_runs = rest2.m_runs ∧
                rest1.cursor = rest2.cursor := by
              simpa [expStats, Prod.ext_iff] using hih
            simp [expStats, es.1, es.2.1, fs.1, fs.2.1, fs.2.2]

/-- Row-level entry bounds: every recorded trial count is at least 1
and every recorded success rate lies in `[0, 1]`. -/
theorem rowRun_entries (O : Oracles) (cfg : MmvRecovery) (clock : ℕ → ℚ)
    (m fuel : ℕ) :
    ∀ (ts : List ℕ) (c cp : ℕ) (res : RowResult),
      rowRun O cfg clock m fuel ts c cp = some res →
      (∀ n ∈ res.t_runs, 1 ≤ n) ∧ (∀ q ∈ res.t_scores, 0 ≤ q ∧ q ≤ 1) := by
  intro ts
  induction ts with
  | nil =>
    intro c cp res h
    rw [rowRun] at h
    cases h
    exact ⟨fun n hn => absurd hn (List.not_mem_nil n),
      fun q hq => absurd hq (List.not_mem_nil q)⟩
  | cons t ts ih =>
    intro c cp res h
    rw [rowRun] at h
    cases hr : runTrials O cfg t m fuel c 0 0 with
    | none => rw [hr] at h; cases h
    | some r =>
      rw [hr] at h
      dsimp only at h
      cases hrest : rowRun O cfg clock m fuel ts r.2.2 (cp + 2) with
      | none => rw [hrest] at h; cases h
      | some rest =>
        rw [hrest] at h
        cases h
        have hb := runTrials_bounds O cfg t m fuel c 0 0 r.1 r.2.1 r.2.2
          (by rw [hr])
        have hrec := ih r.2.2 (cp + 2) rest hrest
        constructor
        · intro n hn
          rcases List.mem_cons.mp hn with h1 | h1
          · omega
          · exact hrec.1 n h1
        · intro q hq
          rcases List.mem_cons.mp hq with h1 | h1
          · subst h1
            have htc : (0 : ℚ) < (r.2.1 : ℚ) := by
              exact_mod_cast Nat.lt_of_lt_of_le Nat.zero_lt_one (by omega)
            constructor
            · positivity
            · rw [div_le_one htc]
              exact_mod_cast (by omega : r.1 ≤ r.2.1)
          · exact hrec.2 q h1

/-- Sweep-level entry bounds, lifted over the `m` rows. -/
theorem expRows_entries (O : Oracles) (cfg : MmvRecovery) (clock : ℕ → ℚ)
    (fuel : ℕ) :
    ∀ (ms : List ℕ) (c cp : ℕ) (res : ExpResult),
      expRows O cfg clock fuel ms c cp = some res →
      (∀ row ∈ res.m_runs, ∀ n ∈ row, 1 ≤ n) ∧
        (∀ row ∈ res.m_scores, ∀ q ∈ row, 0 ≤ q ∧ q ≤ 1) := by
  intro ms
  induction ms with
  | nil =>
    intro c cp res h
    rw [expRows] at h
    cases h
    exact ⟨fun row hrow => absurd hrow (List.not_mem_nil row),
      fun row hrow => absurd hrow (List.not_mem_nil row)⟩
  | cons m ms ih =>
    intro c cp res h
    rw [expRows] at h
    cases hr : rowRun O cfg clock m fuel cfg.idxT c (cp + 1) with
    | none => rw [hr] at h; cases h
    | some row =>
      rw [hr] at h
      dsimp only at h
      cases hrest : expRows O cfg clock fuel ms row.cursor (row.clockPos + 1) with
      | none => rw [hrest] at h; cases h
      | some rest =>
        rw [hrest] at h
        cases h
        have hrow := rowRun_entries O cfg clock m fuel cfg.idxT c (cp + 1) row hr
        have hrec := ih row.cursor (row.clockPos + 1) rest hrest
        constructor
        · intro rw1 hrw
          rcases List.mem_cons.mp hrw with h1 | h1
          · subst h1; exact hrow.1
          · exact hrec.1 rw1 h1
        · intro rw1 hrw
          rcases List.mem_cons.mp hrw with h1 | h1
          · subst h1; exact hrow.2
          · exact hrec.2 rw1 h1

/-! ## Concrete instances used by witnesses and counterexamples -/

/-- A concrete random source whose standard-normal stream is constantly
zero and whose support choice returns the first `K` indices (a valid
draw of `np.random.choice(N, K, replace=False)` whenever `K ≤ N`). -/
def zeroOracle : Oracles :=
  { normal := fun _ => 0
    choice := fun _ K _ => List.range K
    lassoFit := fun _ _ _ _ _ => 0
    confint := fun _ _ => (0, 0)
    nrm := fun _ _ => 0 }

/-- Configuration `MmvRecovery(1, 1, 1, 1, 0, 0, 1, 1, 1, conf=False, t_var=False,
alg="somp")`: the smallest fixed-count configuration (one trial). -/
def cfgFixed1 : MmvRecovery :=
  MmvRecovery.init 1 1 1 1 0 0 1 1 1 false false "somp"

/-- As `cfgFixed1` but with time-varying measurements and `T = 2`. -/
def cfgTvar : MmvRecovery :=
  MmvRecovery.init 1 2 1 1 0 0 1 1 1 false true "somp"

/-- Configuration `MmvRecovery(1, 1, 1, 0, …, alg="osga")`: `K = 0` with one signal
coordinate and the energy-threshold algorithm configured. -/
def cfgK0N1 : MmvRecovery :=
  MmvRecovery.init 1 1 1 0 0 0 1 1 1 false false "osga"

/-- Configuration `MmvRecovery(2, 1, 1, 0, …)`: `K = 0` with two signal coordinates. -/
def cfgK0N2 : MmvRecovery :=
  MmvRecovery.init 2 1 1 0 0 0 1 1 1 false false "osga"

/-- A random source under which the generated measurement operator of
`cfgDeg` has a zero column: the only nonzero draws are positions `2`
(the null signal value) and `5` (the second operator column).  Its
`nrm` oracle agrees with the Euclidean norm on every vector the
degenerate-trial theorem feeds it: `0` on the zero vector, `1` on a
vector of squared sum `1`. -/
def degOracle : Oracles :=
  { normal := fun idx => if idx = 2 then 1 else if idx = 5 then 1 else 0
    choice := fun _ K _ => List.range K
    lassoFit := fun _ _ _ _ _ => 0
    confint := fun _ _ => (0, 0)
    nrm := fun v m => if (∑ i ∈ Finset.range m, v i ^ 2) = 0 then 0 else 1 }

/-- Configuration `MmvRecovery(2, 1, 1, 1, 0, 5, 1, 1, 1, conf=False, t_var=False,
alg="somp")`: one anomalous row with mean 5. -/
def cfgDeg : MmvRecovery :=
  MmvRecovery.init 2 1 1 1 0 5 1 1 1 false false "somp"

/-! ## Helper arithmetic lemmas -/

theorem getD_replicate_of_lt {α : Type} {T t : ℕ} (h : t < T) (a d : α) :
    (List.replicate T a).getD t d = a := by
  rw [List.getD_eq_getElem?_getD, List.getElem?_replicate]
  simp [h]

/-- Positional-numeral uniqueness: quotient and remainder below the
base are determined by `a * B + r`. -/
theorem mul_add_digit_inj {B a a' r r' : ℕ} (hr : r < B) (hr' : r' < B)
    (h : a * B + r = a' * B + r') : a = a' ∧ r = r' := by
  have hB : 0 < B := lt_of_le_of_lt (Nat.zero_le r) hr
  have h1 : r = r' := by
    have e1 : (r + a * B) % B = r := by
      rw [Nat.add_mul_mod_self_right, Nat.mod_eq_of_lt hr]
    have e2 : (r' + a' * B) % B = r' := by
      rw [Nat.add_mul_mod_self_right, Nat.mod_eq_of_lt hr']
    rw [← e1, ← e2, Nat.add_comm r, Nat.add_comm r', h]
  have h2 : a * B = a' * B := by omega
  exact ⟨Nat.eq_of_mul_eq_mul_right hB h2, h1⟩

/-! ## Claim theorems -/

/-- C4: the source's `__init__` performs no validation at all — it
accepts `K > N`, an out-of-domain stopping threshold, and zero `N`,
`T` or `M`, storing every field unchanged instead of raising a
`ConfigurationError` (the source carries only `TODO` comments for the
threshold checks, lines 40–41, and `K > N` only explodes later inside
`np.random.choice` as a trial-time `ValueError`). -/
theorem init_accepts_invalid_config (N T M K : ℕ)
    (mu0 mu1 sigma0 sigma1 thresh : ℚ) (conf t_var : Bool) (alg : String)
    (_invalid : N < K ∨ thresh ≤ 0 ∨ 1 ≤ thresh ∨ N = 0 ∨ T = 0 ∨ M = 0) :
    (MmvRecovery.init N T M K mu0 mu1 sigma0 sigma1 thresh conf t_var alg).N = N ∧
    (MmvRecovery.init N T M K mu0 mu1 sigma0 sigma1 thresh conf t_var alg).T = T ∧
    (MmvRecovery.init N T M K mu0 mu1 sigma0 sigma1 thresh conf t_var alg).M = M ∧
    (MmvRecovery.init N T M K mu0 mu1 sigma0 sigma1 thresh conf t_var alg).K = K ∧
    (MmvRecovery.init N T M K mu0 mu1 sigma0 sigma1 thresh conf t_var alg).thresh = thresh ∧
    (MmvRecovery.init N T M K mu0 mu1 sigma0 sigma1 thresh conf t_var alg).conf = conf :=
  ⟨rfl, rfl, rfl, rfl, rfl, rfl⟩

/-- C4 witness: `MmvRecovery(3, 1, 1, 5, …, thresh=3/2, conf=True)` —
`K > N` and a confidence tolerance outside `(0,1)` — is accepted. -/
theorem init_accepts_invalid_config_witness :
    (MmvRecovery.init 3 1 1 5 0 0 1 1 (3 / 2) true true "lasso").K = 5 ∧
    (MmvRecovery.init 3 1 1 5 0 0 1 1 (3 / 2) true true "lasso").N = 3 := by
  have h := init_accepts_invalid_config 3 1 1 5 0 0 1 1 (3 / 2) true true "lasso"
    (Or.inl (by norm_num))
  exact ⟨h.2.2.2.1, h.1⟩

/-- C8: in fixed-count mode (`conf = False`), `keep_going s n` holds
iff `n < thresh`, and the decision is independent of the success
count. -/
theorem fixed_count_keep_going (O : Oracles) (cfg : MmvRecovery)
    (s n : ℕ) (h : cfg.conf = false) :
    (keep_going O cfg s n = true ↔ (n : ℚ) < cfg.thresh) ∧
    ∀ s1 s2 : ℕ, keep_going O cfg s1 n = keep_going O cfg s2 n := by
  constructor
  · simp [keep_going, h]
  · intro s1 s2
    simp [keep_going, h]

/-- C8 witness at `cfgFixed1` (`conf = False`, `thresh = 1`). -/
theorem fixed_count_keep_going_witness :
    (keep_going zeroOracle cfgFixed1 0 5 = true ↔ (5 : ℚ) < cfgFixed1.thresh) ∧
    keep_going zeroOracle cfgFixed1 0 5 = keep_going zeroOracle cfgFixed1 3 5 :=
  ⟨(fixed_count_keep_going zeroOracle cfgFixed1 0 5 rfl).1,
    (fixed_count_keep_going zeroOracle cfgFixed1 0 5 rfl).2 0 3⟩

/-- C9: the inner trial loop is do-while shaped, so whenever the sweep
returns, every recorded per-cell trial count is at least 1 and every
recorded success rate `successes / trials` is a well-defined value in
`[0, 1]`. -/
theorem cell_statistics_well_formed (O : Oracles) (cfg : MmvRecovery)
    (clock : ℕ → ℚ) (fuel c : ℕ) (res : ExpResult)
    (h : run_experiment O cfg clock fuel c = some res) :
    (∀ row ∈ res.m_runs, ∀ n ∈ row, 1 ≤ n) ∧
    (∀ row ∈ res.m_scores, ∀ q ∈ row, 0 ≤ q ∧ q ≤ 1) :=
  expRows_entries O cfg clock fuel cfg.idxM c 0 res h

/-- C10: the sweep's success-rate and trial-count matrices (and RNG
consumption) are a function of the configuration and the random stream
alone: two runs from identical draws agree on everything except the
elapsed-time matrix, whatever the wall clock does. -/
theorem sweep_deterministic_given_draws (O : Oracles) (cfg : MmvRecovery)
    (fuel c : ℕ) (clock1 clock2 : ℕ → ℚ) :
    (run_experiment O cfg clock1 fuel c).map expStats =
      (run_experiment O cfg clock2 fuel c).map expStats :=
  expRows_clock_irrel O cfg clock1 clock2 fuel cfg.idxM c 0 0

/-- C6: with `t_var = False` the generator draws one `M × N` matrix
(consuming `M*N` draws) and replicates it, so all `T` operator
matrices agree element-for-element; with `t_var = True` each entry
`(t, i, j)` is the draw at stream position `c + t*(M*N) + i*N + j`,
and distinct in-range entries read distinct stream positions (fresh
independent draws), consuming `T*M*N` in total. -/
theorem measurement_operator_modes (O : Oracles) (cfg : MmvRecovery)
    (c N T M : ℕ) :
    (cfg.t_var = false →
      (∀ t1 t2 i j, t1 < T → t2 < T →
        (get_measurement_matrix O cfg c N T M).1 t1 i j =
          (get_measurement_matrix O cfg c N T M).1 t2 i j) ∧
      (get_measurement_matrix O cfg c N T M).2 = c + M * N) ∧
    (cfg.t_var = true →
      (∀ t i j, (get_measurement_matrix O cfg c N T M).1 t i j =
        O.normal (c + t * (M * N) + i * N + j)) ∧
      (get_measurement_matrix O cfg c N T M).2 = c + T * (M * N) ∧
      (∀ t i j t' i' j', t < T → i < M → j < N → t' < T → i' < M → j' < N →
        c + t * (M * N) + i * N + j = c + t' * (M * N) + i' * N + j' →
        t = t' ∧ i = i' ∧ j = j')) := by
  constructor
  · intro hf
    have hmat : ∀ t1 i j, t1 < T →
        (get_measurement_matrix O cfg c N T M).1 t1 i j =
          O.normal (c + i * N + j) := by
      intro t1 i j h1
      simp only [get_measurement_matrix, hf, Bool.false_eq_true, if_false]
      rw [getD_replicate_of_lt h1]
    constructor
    · intro t1 t2 i j h1 h2
      rw [hmat t1 i j h1, hmat t2 i j h2]
    · simp [get_measurement_matrix, hf]
  · intro ht
    have hmat : ∀ t i j, (get_measurement_matrix O cfg c N T M).1 t i j =
        O.normal (c + t * (M * N) + i * N + j) := by
      intro t i j
      simp [get_measurement_matrix, ht]
    refine ⟨hmat, by simp [get_measurement_matrix, ht], ?_⟩
    intro t i j t' i' j' hT hM hN hT' hM' hN' e
    have E : (t * M + i) * N + j = (t' * M + i') * N + j' := by
      have l1 : c + ((t * M + i) * N + j) = c + t * (M * N) + i * N + j := by ring
      have l2 : c + ((t' * M + i') * N + j') = c + t' * (M * N) + i' * N + j' := by
        ring
      exact Nat.add_left_cancel (l1.trans (e.trans l2.symm))
    obtain ⟨hA, hj⟩ := mul_add_digit_inj hN hN' E
    obtain ⟨hteq, hieq⟩ := mul_add_digit_inj hM hM' hA
    exact ⟨hteq, hieq, hj⟩

/-- C6 witness: fixed mode at `cfgFixed1` (`T = 2` forced here via the
argument), time-varying mode at `cfgTvar`. -/
theorem measurement_operator_modes_witness :
    (get_measurement_matrix zeroOracle cfgFixed1 0 1 2 1).1 0 0 0 =
      (get_measurement_matrix zeroOracle cfgFixed1 0 1 2 1).1 1 0 0 ∧
    (get_measurement_matrix zeroOracle cfgTvar 0 1 2 1).1 1 0 0 =
      zeroOracle.normal (0 + 1 * (1 * 1) + 0 * 1 + 0) ∧
    (1 = 1 ∧ 0 = 0 ∧ 0 = 0) :=
  ⟨((measurement_operator_modes zeroOracle cfgFixed1 0 1 2 1).1 rfl).1 0 1 0 0
      (by decide) (by decide),
    ((measurement_operator_modes zeroOracle cfgTvar 0 1 2 1).2 rfl).1 1 0 0,
    ((measurement_operator_modes zeroOracle cfgTvar 0 1 2 1).2 rfl).2.2 1 0 0 1 0 0
      (by decide) (by decide) (by decide) (by decide) (by decide) (by decide) rfl⟩

/-- C2 counterexample: at the valid input `N = 2 ≥ K = 0`, `T = M = 1`,
the Lasso routine's predicted support has 2 elements, not `K = 0`
(Python's `argsort()[-0:]` slice is the whole array). -/
theorem lasso_k0_cardinality_cex :
    (recover_support_lasso zeroOracle cfgK0N2 2 1 1 0 0).2.1.card = 2 ∧
    cfgK0N2.K = 0 := by
  constructor
  · simp [recover_support_lasso, get_signal, get_measurement_matrix, cfgK0N2,
      MmvRecovery.init, zeroOracle, topKFinset, tailSlice, argsort, dotQ,
      Finset.sum_range_succ, List.range_succ, List.insertionSort,
      List.orderedInsert]
  · rfl

/-- C2 (amended): for `1 ≤ K ≤ N` the OSGA and Lasso routines return
exactly `K` distinct indices from `{0,…,N-1}`; the SOMP routine
returns at most `K` distinct indices from `{0,…,N-1}` (exactly `K`
only in the absence of an argmax collision, which the source does not
guard against). -/
theorem predicted_support_cardinality (O : Oracles) (cfg : MmvRecovery)
    (N T M K c : ℕ) (hK : 1 ≤ K) (hKN : K ≤ N) :
    ((recover_support_osga O cfg N T M K c).2.1.card = K ∧
      (recover_support_osga O cfg N T M K c).2.1 ⊆ Finset.range N) ∧
    ((recover_support_lasso O cfg N T M K c).2.1.card = K ∧
      (recover_support_lasso O cfg N T M K c).2.1 ⊆ Finset.range N) ∧
    ((recover_support_somp O cfg N T M K c).2.1.card ≤ K ∧
      (recover_support_somp O cfg N T M K c).2.1 ⊆ Finset.range N) := by
  have hN : 0 < N := lt_of_lt_of_le hK hKN
  refine ⟨⟨?_, ?_⟩, ⟨?_, ?_⟩, ?_, ?_⟩
  · exact topKFinset_card hK hKN
  · exact topKFinset_subset_range _ N K
  · exact topKFinset_card hK hKN
  · exact topKFinset_subset_range _ N K
  · unfold recover_support_somp
    dsimp only
    refine le_trans (sompFold_card_le O _ T M N (List.range K) ⟨_, [], ∅⟩) ?_
    simp
  · unfold recover_support_somp
    dsimp only
    refine sompFold_subset_range O _ T M N hN (List.range K) ⟨_, [], ∅⟩ ?_
    simp

/-- C2 witness at `cfgFixed1` (`N = T = M = K = 1`). -/
theorem predicted_support_cardinality_witness :
    1 ≤ 1 ∧
    ((recover_support_osga zeroOracle cfgFixed1 1 1 1 1 0).2.1.card = 1 ∧
      (recover_support_osga zeroOracle cfgFixed1 1 1 1 1 0).2.1 ⊆ Finset.range 1) ∧
    ((recover_support_lasso zeroOracle cfgFixed1 1 1 1 1 0).2.1.card = 1 ∧
      (recover_support_lasso zeroOracle cfgFixed1 1 1 1 1 0).2.1 ⊆ Finset.range 1) ∧
    ((recover_support_somp zeroOracle cfgFixed1 1 1 1 1 0).2.1.card ≤ 1 ∧
      (recover_support_somp zeroOracle cfgFixed1 1 1 1 1 0).2.1 ⊆ Finset.range 1) :=
  ⟨le_refl 1,
    predicted_support_cardinality zeroOracle cfgFixed1 1 1 1 1 0 (by decide) (by decide)⟩

/-- C3 counterexample: at `K = 0`, `N = T = M = 1`, the OSGA routine's
predicted support is `{0}` (all `N` indices), not the empty set, and
the trial's success indicator is `0`, not `1`. -/
theorem k0_not_empty_success_cex :
    (recover_support_osga zeroOracle cfgK0N1 1 1 1 0 0).2.1 = {0} ∧
    (recover_support_osga zeroOracle cfgK0N1 1 1 1 0 0).2.2.1 = 0 ∧
    cfgK0N1.K = 0 := by
  refine ⟨?_, ?_, rfl⟩
  · simp [recover_support_osga, get_signal, get_measurement_matrix, cfgK0N1,
      MmvRecovery.init, zeroOracle, topKFinset, tailSlice, argsort, dotQ,
      Finset.sum_range_succ, List.range_succ, List.insertionSort,
      List.orderedInsert]
  · simp [recover_support_osga, get_signal, get_measurement_matrix, cfgK0N1,
      MmvRecovery.init, zeroOracle, topKFinset, tailSlice, argsort, dotQ,
      Finset.sum_range_succ, List.range_succ, List.insertionSort,
      List.orderedInsert]
    decide

/-- The support returned by `get_signal` is the chooser's draw. -/
theorem get_signal_support (O : Oracles) (cfg : MmvRecovery) (c N T K : ℕ) :
    (get_signal O cfg c N T K).2.1 = O.choice N K c := rfl

/-- C3 (amended): for `K = 0` (and `N ≥ 1`, with the chooser returning
the empty support) the SOMP routine returns the empty predicted
support with success 1, but the OSGA and Lasso routines return the
full index set `{0,…,N-1}` with success 0. -/
theorem k0_degenerate_behavior (O : Oracles) (cfg : MmvRecovery)
    (N T M c : ℕ) (hN : 1 ≤ N) (hch : O.choice N 0 c = []) :
    ((recover_support_somp O cfg N T M 0 c).2.1 = ∅ ∧
      (recover_support_somp O cfg N T M 0 c).2.2.1 = 1) ∧
    ((recover_support_osga O cfg N T M 0 c).2.1 = Finset.range N ∧
      (recover_support_osga O cfg N T M 0 c).2.2.1 = 0) ∧
    ((recover_support_lasso O cfg N T M 0 c).2.1 = Finset.range N ∧
      (recover_support_lasso O cfg N T M 0 c).2.2.1 = 0) := by
  have hrange : (Finset.range N) ≠ (∅ : Finset ℕ) := by
    intro habs
    rw [Finset.range_eq_empty_iff] at habs
    omega
  constructor
  · constructor
    · simp [recover_support_somp]
    · simp [recover_support_somp, get_signal_support, hch]
  · constructor
    · constructor
      · simp [recover_support_osga, topKFinset_zero]
      · simp only [recover_support_osga, get_signal_support, hch, topKFinset_zero]
        simp [hrange.symm]
    · constructor
      · simp [recover_support_lasso, topKFinset_zero]
      · simp only [recover_support_lasso, get_signal_support, hch, topKFinset_zero]
        simp [hrange.symm]

/-- C3 witness at `N = 1`, `T = M = 1`, cursor 0. -/
theorem k0_degenerate_behavior_witness :
    1 ≤ 1 ∧
    ((recover_support_somp zeroOracle cfgK0N1 1 1 1 0 0).2.1 = ∅ ∧
      (recover_support_somp zeroOracle cfgK0N1 1 1 1 0 0).2.2.1 = 1) ∧
    ((recover_support_osga zeroOracle cfgK0N1 1 1 1 0 0).2.1 = Finset.range 1 ∧
      (recover_support_osga zeroOracle cfgK0N1 1 1 1 0 0).2.2.1 = 0) ∧
    ((recover_support_lasso zeroOracle cfgK0N1 1 1 1 0 0).2.1 = Finset.range 1 ∧
      (recover_support_lasso zeroOracle cfgK0N1 1 1 1 0 0).2.2.1 = 0) :=
  ⟨le_refl 1, k0_degenerate_behavior zeroOracle cfgK0N1 1 1 1 0 (by decide) rfl⟩

/-- C7 counterexample: at `K = 0`, `N = 2`, the OSGA routine does not
return "the `K` indices with the largest xi values" (which would be
the empty set): its predicted support has 2 elements. -/
theorem osga_k0_topk_cex :
    (recover_support_osga zeroOracle cfgK0N2 2 1 1 0 0).2.1 = {0, 1} ∧
    cfgK0N2.K = 0 := by
  constructor
  · simp [recover_support_osga, get_signal, get_measurement_matrix, cfgK0N2,
      MmvRecovery.init, zeroOracle, topKFinset, tailSlice, argsort, dotQ,
      Finset.sum_range_succ, List.range_succ, List.insertionSort,
      List.orderedInsert]
    decide
  · rfl

/-- C7 (amended): for `1 ≤ K ≤ N` the OSGA routine's predicted support
is the top-`K` selection over exactly the spec's energy statistic
`xi[n] = (1/T)·Σ_t (y_t · phi_t[:,n])²` with `y_t = phi_t · X[:,t]`:
it has `K` elements and every selected index's statistic is at least
every unselected in-range index's (ties resolved by the sort order,
which numpy leaves implementation-defined).  For `K = 0` the selection
degenerates to all `N` indices (see the counterexample). -/
theorem osga_energy_statistic_topk (O : Oracles) (cfg : MmvRecovery)
    (N T M K c : ℕ) (hK : 1 ≤ K) (hKN : K ≤ N) :
    (recover_support_osga O cfg N T M K c).2.1 =
      topKFinset (specEnergyStat O cfg N T M c K) N K ∧
    (recover_support_osga O cfg N T M K c).2.1.card = K ∧
    (∀ i ∈ (recover_support_osga O cfg N T M K c).2.1, ∀ j < N,
      j ∉ (recover_support_osga O cfg N T M K c).2.1 →
      specEnergyStat O cfg N T M c K j ≤ specEnergyStat O cfg N T M c K i) := by
  have hpred : (recover_support_osga O cfg N T M K c).2.1 =
      topKFinset (specEnergyStat O cfg N T M c K) N K := rfl
  refine ⟨hpred, ?_, ?_⟩
  · exact topKFinset_card hK hKN
  · intro i hi j hj hj2
    rw [hpred] at hi hj2
    exact topKFinset_dominates hK hi hj hj2

/-- C7 witness at `cfgFixed1` (`N = T = M = K = 1`). -/
theorem osga_energy_statistic_topk_witness :
    1 ≤ 1 ∧
    (recover_support_osga zeroOracle cfgFixed1 1 1 1 1 0).2.1 =
      topKFinset (specEnergyStat zeroOracle cfgFixed1 1 1 1 0 1) 1 1 ∧
    (recover_support_osga zeroOracle cfgFixed1 1 1 1 1 0).2.1.card = 1 :=
  ⟨le_refl 1,
    (osga_energy_statistic_topk zeroOracle cfgFixed1 1 1 1 1 0 (by decide) (by decide)).1,
    (osga_energy_statistic_topk zeroOracle cfgFixed1 1 1 1 1 0 (by decide) (by decide)).2.1⟩

/-- C1: the sweep's inner loop ignores the configured algorithm — the
source hard-codes `self.recover_support_somp(...)` at line 192–193.
First conjunct: the trial loop's behaviour is invariant under changing
the `alg` field to anything.  Remaining conjuncts: with
`alg = "osga"` and `K = 0`, `N = 1`, the sweep's one trial records a
success (SOMP semantics: empty prediction equals the empty support),
although the configured OSGA routine at the same RNG cursor yields
success 0 — the dispatch promised by the configuration (source lines
50–51) never happens. -/
theorem sweep_ignores_alg_dispatch :
    (∀ (O : Oracles) (cfg : MmvRecovery) (a : String) (t m fuel c sc tc : ℕ),
      runTrials O ⟨cfg.N, cfg.T, cfg.M, cfg.K, cfg.mu0, cfg.mu1, cfg.sigma0,
        cfg.sigma1, cfg.thresh, cfg.conf, cfg.t_var, a⟩ t m fuel c sc tc =
        runTrials O cfg t m fuel c sc tc) ∧
    runTrials zeroOracle cfgK0N1 1 1 1 0 0 0 = some (1, 1, 2) ∧
    (recover_support_osga zeroOracle cfgK0N1 1 1 1 0 0).2.2.1 = 0 ∧
    cfgK0N1.alg = "osga" := by
  refine ⟨?_, ?_, ?_, rfl⟩
  · intro O cfg a t m fuel
    induction fuel with
    | zero => intro c sc tc; rfl
    | succ fuel ih =>
      intro c sc tc
      rw [runTrials, runTrials]
      simp only [ih]
      rfl
  · simp [runTrials, recover_support_somp, get_signal, get_measurement_matrix,
      cfgK0N1, MmvRecovery.init, zeroOracle, keep_going,
      Finset.sum_range_succ, List.range_succ]
  · simp [recover_support_osga, get_signal, get_measurement_matrix, cfgK0N1,
      MmvRecovery.init, zeroOracle, topKFinset, tailSlice, argsort, dotQ,
      Finset.sum_range_succ, List.range_succ, List.insertionSort,
      List.orderedInsert]
    decide

/-- C5: the SOMP routine has no guard against a zero-norm operator
column.  Under `degOracle` the generated operator's column 0 is the
zero vector (second conjunct; the `nrm` oracle returns the true
Euclidean norms 0 and 1 of the two columns it is applied to), yet the
trial completes normally and returns a predicted support — it raises
no `NumericalDegeneracy` condition.  The source computes
`|r·phi[:,0]| / 0.0` (a float NaN via `0.0/0.0`, warned but not
raised, flowing into `np.argmax`); the embedding's `ℚ` division by
zero gives the score contribution 0.  Either way the computation
proceeds instead of failing. -/
theorem somp_zero_norm_no_error :
    degOracle.normal 4 = 0 ∧
    (get_measurement_matrix degOracle cfgDeg 4 2 1 1).1 0 0 0 = 0 ∧
    recover_support_somp degOracle cfgDeg 2 1 1 1 0 = ({0}, {1}, 0, 6) := by
  refine ⟨rfl, ?_, ?_⟩
  · simp [get_measurement_matrix, cfgDeg, MmvRecovery.init, degOracle]
  · simp [recover_support_somp, get_signal, get_measurement_matrix, cfgDeg,
      MmvRecovery.init, degOracle, sompStep, sompScore, argmaxIdx, dotQ,
      Finset.sum_range_succ, List.range_succ]

/-- C9 witness: a complete one-cell sweep (`cfgFixed1`, fixed-count
cutoff 1) evaluates to trial-count matrix `[[1]]` and score matrix
`[[1]]`; the theorem then yields the recorded bounds. -/
theorem cell_statistics_well_formed_witness :
    (1 : ℕ) ≤ 1 ∧ (0 : ℚ) ≤ 1 ∧ (1 : ℚ) ≤ 1 := by
  have h : run_experiment zeroOracle cfgFixed1 (fun _ => 0) 1 0 =
      some ⟨[[0]], [[1]], [[1]], 4, 4⟩ := by
    simp [run_experiment, expRows, rowRun, runTrials, recover_support_somp,
      get_signal, get_measurement_matrix, cfgFixed1, MmvRecovery.init,
      zeroOracle, sompStep, sompScore, argmaxIdx, dotQ, keep_going,
      MmvRecovery.idxT, MmvRecovery.idxM, Finset.sum_range_succ,
      List.range_succ]
  have hthm := cell_statistics_well_formed zeroOracle cfgFixed1 (fun _ => 0) 1 0 _ h
  exact ⟨hthm.1 [1] (by simp) 1 (by simp),
    (hthm.2 [1] (by simp) 1 (by simp)).1,
    (hthm.2 [1] (by simp) 1 (by simp)).2⟩
